import Mathlib

/-!
Verification of the statistical aggregation and estimation pipeline of the
chess-ai repository (scripts/build_opening_book.py, scripts/analyze_calibration.py,
scripts/collect_lichess_data.py), as a shallow embedding in Lean 4.

Modelling conventions:
- Python dicts with insertion order are modelled as association lists.
- Python float arithmetic in the Elo estimator is modelled over the reals;
  rational-valued score and frequency arithmetic is modelled over the rationals.
- The chess board itself is external to the scripts under analysis (the
  python-chess library); per-position facts the scripts read off the board
  (FEN string, quietness, side to move) are carried as data on each position.
-/

/-! ## Opening book: frequency table and significance filter
Source: scripts/build_opening_book.py -/

/-- A frequency table: FEN position mapped to moves with observed counts.
Models the Python dict of dicts, keys in insertion order. -/
abbrev FreqTable := List (String × List (String × Nat))

/-- Total observations behind a position: sum of the per-move counts.
Models `total_games = sum(moves.values())` at build_opening_book.py line 99. -/
def sumCounts (moves : List (String × Nat)) : Nat :=
  (moves.map Prod.snd).sum

/-- The significance filter, translated from `filter_book`
(build_opening_book.py lines 84 to 115): for each position compute the total,
skip the position when the total is below `minGames`, keep the moves whose
relative frequency reaches `minFrequency`, and keep the position only when some
move survives. -/
def filter_book (book : FreqTable) (minFrequency : ℚ) (minGames : Nat) : FreqTable :=
  match book with
  | [] => []
  | (fen, moves) :: rest =>
    let total := sumCounts moves
    if total < minGames then filter_book rest minFrequency minGames
    else
      let popular := moves.filter fun mc => decide (minFrequency ≤ (mc.2 : ℚ) / (total : ℚ))
      if popular.isEmpty then filter_book rest minFrequency minGames
      else (fen, popular) :: filter_book rest minFrequency minGames

/-- Modelled from the spec, section 4.4: for each Position, compute
`total = sum(counts)`; discard the position entirely if `total < minSamples`;
otherwise retain only moves with `count / total >= minFrequency`; discard the
position if no move survives. -/
def sigFilterSpec (tbl : FreqTable) (minSamples : Nat) (minFrequency : ℚ) : FreqTable :=
  tbl.filterMap fun pm =>
    let total := sumCounts pm.2
    if total < minSamples then none
    else
      let retained := pm.2.filter fun mc => decide (minFrequency ≤ (mc.2 : ℚ) / (total : ℚ))
      if retained = [] then none else some (pm.1, retained)

/-- Descending-count comparison used to rank moves. Models the key of
`sorted(moves.items(), key=lambda x: x[1], reverse=True)` at
build_opening_book.py line 134. -/
def moveGE (a b : String × Nat) : Prop := b.2 ≤ a.2

instance : DecidableRel moveGE := fun a b => inferInstanceAs (Decidable (b.2 ≤ a.2))

instance : IsTotal (String × Nat) moveGE := ⟨fun a b => le_total b.2 a.2⟩

instance : IsTrans (String × Nat) moveGE := ⟨fun _ _ _ h1 h2 => le_trans h2 h1⟩

/-- The ranked move list of one position. Python `sorted` is a stable sort;
a stable sort by descending count is extensionally the insertion sort under
`moveGE`, which is the model used here. -/
def sortedMovesDesc (moves : List (String × Nat)) : List (String × Nat) :=
  List.insertionSort moveGE moves

/-- The move strings emitted for one retained position by `generate_rust_code`
(build_opening_book.py line 142): the top five of the ranked moves. -/
def emittedMoves (moves : List (String × Nat)) : List String :=
  ((sortedMovesDesc moves).take 5).map Prod.fst

/-! ## Calibration analysis: log parsing, Elo estimation, summary emission
Source: scripts/analyze_calibration.py -/

/-- One calibration log file after the regex scans of `parse_log_file`
(analyze_calibration.py lines 11 to 41): the filename match yields depth and
opponent Elo, and each of the four content scans either matched or did not. -/
structure CalibLog where
  nameMatch : Option (Nat × Nat)
  wins : Option Nat
  losses : Option Nat
  draws : Option Nat
  points : Option ℚ
deriving DecidableEq

/-- Translation of `parse_log_file` (analyze_calibration.py lines 11 to 41):
fails when the filename or any of the four content scans fails; otherwise
returns depth, opponent Elo, score percentage, wins, losses and draws, where
the score percentage defaults to 0 when the game count is zero (line 39). -/
def parse_log_file (lg : CalibLog) : Option (Nat × Nat × ℚ × Nat × Nat × Nat) :=
  match lg.nameMatch with
  | none => none
  | some (depth, sfElo) =>
    match lg.wins, lg.losses, lg.draws, lg.points with
    | some w, some l, some d, some pts =>
      let games := w + l + d
      let scorePct : ℚ := if 0 < games then pts / (games : ℚ) * 100 else 0
      some (depth, sfElo, scorePct, w, l, d)
    | _, _, _, _ => none

/-- Points recomputed in `main` at analyze_calibration.py line 95:
`points = wins + draws * 0.5`. -/
def mainPoints (wins draws : Nat) : ℚ :=
  (wins : ℚ) + (draws : ℚ) * (1 / 2)

/-- Score clamp of `estimate_elo_from_score` (analyze_calibration.py line 52):
`max(0.01, min(0.99, score_percentage / 100))`. -/
noncomputable def clampScore (scorePercentage : ℝ) : ℝ :=
  max 0.01 (min 0.99 (scorePercentage / 100))

/-- Rating difference of `estimate_elo_from_score` (line 55):
`-400 * log10(1/score - 1)`. -/
noncomputable def eloDiff (scorePercentage : ℝ) : ℝ :=
  -400 * Real.logb 10 (1 / clampScore scorePercentage - 1)

/-- Python `int()` applied to a float: truncation toward zero. -/
noncomputable def intTrunc (x : ℝ) : ℤ :=
  if 0 ≤ x then ⌊x⌋ else ⌈x⌉

/-- Translation of `estimate_elo_from_score` (analyze_calibration.py lines
43 to 57), with Python float arithmetic modelled over the reals. -/
noncomputable def estimate_elo_from_score (opponentElo : ℤ) (scorePercentage : ℝ) : ℤ :=
  intTrunc ((opponentElo : ℝ) + eloDiff scorePercentage)

/-- Estimates computed by `main` (analyze_calibration.py line 99): every
successfully parsed record is fed to the estimator, with the parsed score
percentage, regardless of its game count. The per-depth grouping of `main`
does not change which records are estimated, so the flat list is modelled. -/
noncomputable def mainEstimates (logs : List CalibLog) : List ℤ :=
  (logs.filterMap parse_log_file).map fun r =>
    estimate_elo_from_score (r.2.1 : ℤ) ((r.2.2.1 : ℚ) : ℝ)

/-! ## Depth-to-Elo lookup snippet generated by `main`
(analyze_calibration.py lines 147 to 168). The script prints a TypeScript
function; the definitions below give the decision semantics of the printed
clauses, which is what the claims are about. -/

/-- Midpoint clauses printed for indices `1 <= i <= n-1`
(analyze_calibration.py lines 158 to 165): for each consecutive pair of table
entries, the clause threshold is `(prev_elo + depth_elo) // 2` (Python floor
division) and the returned key is the earlier one. -/
def midClauses {α : Type} : List (α × ℤ) → List (ℤ × α)
  | (k₁, r₁) :: (k₂, r₂) :: rest => ((r₁ + r₂).fdiv 2, k₁) :: midClauses ((k₂, r₂) :: rest)
  | _ => []

/-- Full clause list and default of the generated function: the `i == 0` branch
prints `if (elo < r0) return k0;` (line 156), the later branches print the
midpoint clauses, and for the last index the default `return k;` follows
(line 161). With a single entry only the first clause is printed and the
generated function has no default return. -/
def genClauses {α : Type} (ds : List (α × ℤ)) : List (ℤ × α) × Option α :=
  match ds with
  | [] => ([], none)
  | [(k, r)] => ([(r, k)], none)
  | (k, r) :: rest =>
    ((r, k) :: midClauses ((k, r) :: rest), (((k, r) :: rest).getLast?).map Prod.fst)

/-- Evaluation of an if-chain of `elo < bound` clauses with an optional final
default return. -/
def evalChain {α : Type} : List (ℤ × α) → Option α → ℤ → Option α
  | [], dflt, _ => dflt
  | (b, k) :: rest, dflt, x => if x < b then some k else evalChain rest dflt x

/-- The rating-to-depth function produced by the generated snippet. -/
def eloToDepth {α : Type} (ds : List (α × ℤ)) (x : ℤ) : Option α :=
  evalChain (genClauses ds).1 (genClauses ds).2 x

/-- Modelled from the spec, section 4.6: for consecutive entries
`(k_i, r_i)` and `(k_{i+1}, r_{i+1})` the boundary rating is
`floor((r_i + r_{i+1}) / 2)`. -/
def specBoundaries {α : Type} : List (α × ℤ) → List ℤ
  | (_, r₁) :: (k₂, r₂) :: rest => (r₁ + r₂).fdiv 2 :: specBoundaries ((k₂, r₂) :: rest)
  | _ => []

/-- Modelled from the spec, section 4.6: the derived function maps an input
rating `x` to the smallest configKey whose upper boundary exceeds `x`; ratings
at or above the last boundary map to the largest configKey. -/
def specLookup {α : Type} (ds : List (α × ℤ)) (x : ℤ) : Option α :=
  match ((ds.map Prod.fst).zip (specBoundaries ds)).find? (fun kb => decide (x < kb.2)) with
  | some kb => some kb.1
  | none => (ds.getLast?).map Prod.fst

/-! ## Summary emission of `main` (analyze_calibration.py lines 115 to 169).
The emitted lines are modelled as structured data, one constructor per print
statement shape; a constructor for a monotonicity warning is part of the
vocabulary so that its absence from the emitted output can be stated. -/

/-- One line of the summary output. -/
inductive CalLine where
  | rule (ch : Char) : CalLine
  | text (s : String) : CalLine
  | blank : CalLine
  | mappingRow (depth : Nat) (elo : ℤ) (skill : String) : CalLine
  | codeClause (bound : ℤ) (key : Nat) : CalLine
  | codeReturn (key : Nat) : CalLine
  | monotonicityWarning (msg : String) : CalLine
deriving DecidableEq

/-- Whether a line is a monotonicity warning. -/
def CalLine.isWarning : CalLine → Bool
  | .monotonicityWarning _ => true
  | _ => false

/-- Extracts the data of a mapping-table row. -/
def CalLine.rowData : CalLine → Option (Nat × ℤ × String)
  | .mappingRow d e s => some (d, e, s)
  | _ => none

/-- The `skill_levels` table of analyze_calibration.py lines 123 to 133, in
dict insertion order; `none` as upper bound models `float(inf)`. -/
def skill_levels : List ((ℤ × Option ℤ) × String) :=
  [((0, some 800), "Beginner"),
   ((800, some 1000), "Novice"),
   ((1000, some 1200), "Casual Player"),
   ((1200, some 1400), "Intermediate"),
   ((1400, some 1600), "Club Player"),
   ((1600, some 1800), "Advanced"),
   ((1800, some 2000), "Expert"),
   ((2000, some 2200), "Master"),
   ((2200, none), "Strong Master")]

/-- Skill lookup of analyze_calibration.py lines 137 to 141: first matching
interval wins, default "Unknown". -/
def skillFor (elo : ℤ) : String :=
  match skill_levels.find? (fun e =>
      decide (e.1.1 ≤ elo) && (match e.1.2 with
        | some h => decide (elo < h)
        | none => true)) with
  | some e => e.2
  | none => "Unknown"

/-- Ascending order on depth keys, used to model `sorted(depth_elos.keys())`
and `sorted(depth_elos.items())` in analyze_calibration.py lines 135 and 153. -/
def keyLE (a b : Nat × ℤ) : Prop := a.1 ≤ b.1

instance : DecidableRel keyLE := fun a b => inferInstanceAs (Decidable (a.1 ≤ b.1))

instance : IsTotal (Nat × ℤ) keyLE := ⟨fun a b => le_total a.1 b.1⟩

instance : IsTrans (Nat × ℤ) keyLE := ⟨fun _ _ _ h1 h2 => le_trans h1 h2⟩

/-- The summary and snippet emission of `main` (analyze_calibration.py lines
115 to 169), as a function of the accumulated `depth_elos` table. Every print
statement of that region is transcribed in order; the script contains no
conditional print depending on monotonicity of the ratings. -/
def calibSummaryOutput (depthElos : List (Nat × ℤ)) : List CalLine :=
  let rows := List.insertionSort keyLE depthElos
  let clauses := genClauses rows
  [CalLine.rule (Char.ofNat 61), CalLine.text "DEPTH TO ELO MAPPING",
   CalLine.rule (Char.ofNat 61), CalLine.blank,
   CalLine.text " Depth | Est. Elo | Skill Level",
   CalLine.text "-------|----------|----------------------------------"]
  ++ rows.map (fun de => CalLine.mappingRow de.1 de.2 (skillFor de.2))
  ++ [CalLine.blank, CalLine.rule (Char.ofNat 61),
      CalLine.text "Suggested Elo-to-Depth mapping function:", CalLine.blank,
      CalLine.text "```typescript",
      CalLine.text "export function eloToDepth(elo: number): number \x7b"]
  ++ clauses.1.map (fun bk => CalLine.codeClause bk.1 bk.2)
  ++ (match clauses.2 with
      | some k => [CalLine.codeReturn k]
      | none => [])
  ++ [CalLine.text "\x7d", CalLine.text "```", CalLine.blank]

/-! ## Training-data collection
Source: scripts/collect_lichess_data.py -/

/-- A raw rating header field: absent from the headers, present but not an
integer, or an integer value. -/
inductive EloField where
  | absent : EloField
  | bad : EloField
  | val (v : ℤ) : EloField
deriving DecidableEq

/-- Reading of one rating header under the shared convention of both scripts:
`headers.get(name, default 0)` followed by `int(...)`, where a present but
unparseable value raises and is mapped to `none`. -/
def parseEloDefaultZero : EloField → Option ℤ
  | .absent => some 0
  | .bad => none
  | .val v => some v

/-- Translation of `get_game_elo` (collect_lichess_data.py lines 66 to 73):
both headers are read inside a single try block, so one unparseable value
discards both. -/
def get_game_elo (w b : EloField) : Option ℤ × Option ℤ :=
  match parseEloDefaultZero w, parseEloDefaultZero b with
  | some wv, some bv => (some wv, some bv)
  | _, _ => (none, none)

/-- The rating gate of `process_game` (collect_lichess_data.py lines 85 to 90):
the game survives when both ratings parse and both reach the minimum. -/
def trainingUsed (w b : EloField) (minElo : ℤ) : Bool :=
  match get_game_elo w b with
  | (some wv, some bv) => !(decide (wv < minElo) || decide (bv < minElo))
  | _ => false

/-- Per-position facts read off the board after a move is pushed: FEN string,
quietness as judged by `is_quiet_position`, and the side to move. -/
structure PosInfo where
  fen : String
  isQuiet : Bool
  turnWhite : Bool
deriving DecidableEq

/-- One parsed game as seen by `process_game`: result header, rating headers,
and the successive after-move positions of the mainline. -/
structure GameRecord where
  result : String
  whiteElo : EloField
  blackElo : EloField
  positions : List PosInfo

/-- Translation of `result_to_score` (collect_lichess_data.py lines 54 to 63). -/
def result_to_score (result : String) (sideToMoveWhite : Bool) : Option ℚ :=
  if result = "1-0" then some (if sideToMoveWhite then 1 else 0)
  else if result = "0-1" then some (if sideToMoveWhite then 0 else 1)
  else if result = "1/2-1/2" then some (1 / 2)
  else none

/-- The move-walk of `process_game` (collect_lichess_data.py lines 92 to 124):
the loop runs while moves remain and fewer than `ppg` positions are collected;
each step advances the move number, skips moves below 10, stops above 50,
skips non-quiet positions, skips positions without a score, and otherwise
collects the pair. -/
def extractLoop (result : String) (ppg : Nat) :
    List PosInfo → Nat → Nat → List (String × ℚ)
  | [], _, _ => []
  | p :: rest, moveNum, collected =>
    if ppg ≤ collected then []
    else
      let mn := moveNum + 1
      if mn < 10 then extractLoop result ppg rest mn collected
      else if 50 < mn then []
      else if p.isQuiet = false then extractLoop result ppg rest mn collected
      else
        match result_to_score result p.turnWhite with
        | none => extractLoop result ppg rest mn collected
        | some s => (p.fen, s) :: extractLoop result ppg rest mn (collected + 1)

/-- Translation of `process_game` (collect_lichess_data.py lines 76 to 124):
non-decisive games are rejected first, then the rating gate, then the walk. -/
def process_game (g : GameRecord) (minElo : ℤ) (ppg : Nat) : List (String × ℚ) :=
  if g.result = "1-0" ∨ g.result = "0-1" then
    if trainingUsed g.whiteElo g.blackElo minElo then
      extractLoop g.result ppg g.positions 0 0
    else []
  else []

/-- The lines emitted by `main` (collect_lichess_data.py lines 198 to 215):
the per-game position lists concatenated in order, truncated at
`max_positions`. -/
def collectMain (games : List GameRecord) (minElo : ℤ) (ppg maxPos : Nat) :
    List (String × ℚ) :=
  ((games.map fun g => process_game g minElo ppg).flatten).take maxPos

/-- A concrete drawn game with quiet middle-game positions; used to exhibit
the rejection of non-decisive games. -/
def drawnGame : GameRecord :=
  { result := "1/2-1/2"
    whiteElo := .val 2500
    blackElo := .val 2500
    positions := List.replicate 20 { fen := "f", isQuiet := true, turnWhite := true } }

/-! ## Opening extraction
Source: scripts/build_opening_book.py, `extract_openings` -/

/-- One parsed game as seen by `extract_openings`: rating headers and the
mainline moves, each paired with the FEN of the position before the move. -/
structure OpeningGame where
  whiteElo : EloField
  blackElo : EloField
  moves : List (String × String)

/-- The rating gate of `extract_openings` (build_opening_book.py lines 49 to
58): both headers are read with default 0 and averaged; the game survives when
the average reaches `minRating`, and an unparseable header discards the game. -/
def openingUsed (g : OpeningGame) (minRating : ℚ) : Bool :=
  match parseEloDefaultZero g.whiteElo, parseEloDefaultZero g.blackElo with
  | some wv, some bv => !(decide (((wv : ℚ) + (bv : ℚ)) / 2 < minRating))
  | _, _ => false

/-- The per-game contribution of `extract_openings` (build_opening_book.py
lines 60 to 76): nothing when the gate rejects the game, otherwise the first
`maxMoves` position-move pairs. -/
def openingGamePositions (g : OpeningGame) (minRating : ℚ) (maxMoves : Nat) :
    List (String × String) :=
  if openingUsed g minRating then g.moves.take maxMoves else []
/-! ## Helper lemmas: logarithm bounds and integer truncation -/

theorem logb_ten_gt {n a b : Nat} (hb : 0 < b) (h : 10 ^ a < n ^ b) :
    (a : ℝ) / (b : ℝ) < Real.logb 10 (n : ℝ) := by
  have h10 : (0 : ℝ) < Real.log 10 := Real.log_pos (by norm_num)
  have hb' : (0 : ℝ) < (b : ℝ) := by exact_mod_cast hb
  rw [Real.logb, div_lt_div_iff₀ hb' h10]
  have key : Real.log ((10 : ℝ) ^ a) < Real.log ((n : ℝ) ^ b) := by
    apply Real.log_lt_log (by positivity)
    exact_mod_cast h
  rw [Real.log_pow, Real.log_pow] at key
  nlinarith [key]

theorem logb_ten_lt {n a b : Nat} (hb : 0 < b) (hn : 0 < n) (h : n ^ b < 10 ^ a) :
    Real.logb 10 (n : ℝ) < (a : ℝ) / (b : ℝ) := by
  have h10 : (0 : ℝ) < Real.log 10 := Real.log_pos (by norm_num)
  have hb' : (0 : ℝ) < (b : ℝ) := by exact_mod_cast hb
  rw [Real.logb, div_lt_div_iff₀ h10 hb']
  have hn' : (0 : ℝ) < (n : ℝ) := by exact_mod_cast hn
  have key : Real.log ((n : ℝ) ^ b) < Real.log ((10 : ℝ) ^ a) := by
    apply Real.log_lt_log (by positivity)
    exact_mod_cast h
  rw [Real.log_pow, Real.log_pow] at key
  nlinarith [key]

theorem intTrunc_intCast (z : ℤ) : intTrunc (z : ℝ) = z := by
  unfold intTrunc
  split
  · exact Int.floor_intCast z
  · exact Int.ceil_intCast z

theorem intTrunc_mono {x y : ℝ} (h : x ≤ y) : intTrunc x ≤ intTrunc y := by
  unfold intTrunc
  by_cases hx : 0 ≤ x
  · have hy : 0 ≤ y := le_trans hx h
    rw [if_pos hx, if_pos hy]
    exact Int.floor_le_floor h
  · rw [if_neg hx]
    by_cases hy : 0 ≤ y
    · rw [if_pos hy]
      calc ⌈x⌉ ≤ 0 := Int.ceil_le.mpr (by simpa using le_of_not_le hx)
        _ ≤ ⌊y⌋ := Int.le_floor.mpr (by simpa using hy)
    · rw [if_neg hy]
      exact Int.ceil_le_ceil h

/-! ## Helper lemmas: the Elo estimator at concrete scores -/

theorem clampScore_bounds (sp : ℝ) : 0.01 ≤ clampScore sp ∧ clampScore sp ≤ 0.99 := by
  unfold clampScore
  constructor
  · exact le_max_left _ _
  · exact max_le (by norm_num) (min_le_left _ _)

theorem clampScore_mono {s₁ s₂ : ℝ} (h : s₁ ≤ s₂) : clampScore s₁ ≤ clampScore s₂ := by
  unfold clampScore
  exact max_le_max le_rfl (min_le_min le_rfl (by linarith))

theorem eloDiff_mono {s₁ s₂ : ℝ} (h : s₁ ≤ s₂) : eloDiff s₁ ≤ eloDiff s₂ := by
  unfold eloDiff
  have hb₁ := clampScore_bounds s₁
  have hb₂ := clampScore_bounds s₂
  have hc := clampScore_mono h
  have hpos₁ : (0 : ℝ) < clampScore s₁ := by linarith [hb₁.1]
  have hpos₂ : (0 : ℝ) < clampScore s₂ := by linarith [hb₂.1]
  have harg₂ : (0 : ℝ) < 1 / clampScore s₂ - 1 := by
    have : 1 / clampScore s₂ ≥ 1 / 0.99 := by
      apply one_div_le_one_div_of_le hpos₂ hb₂.2 |>.trans_eq rfl
    have h99 : (1 : ℝ) / 0.99 > 1 := by norm_num
    linarith
  have hle : 1 / clampScore s₂ - 1 ≤ 1 / clampScore s₁ - 1 := by
    have := one_div_le_one_div_of_le hpos₁ hc
    linarith
  have hlog := Real.logb_le_logb_of_le (b := 10) (by norm_num) harg₂ hle
  linarith

theorem estimate_mono (R : ℤ) {s₁ s₂ : ℝ} (h : s₁ ≤ s₂) :
    estimate_elo_from_score R s₁ ≤ estimate_elo_from_score R s₂ := by
  unfold estimate_elo_from_score
  exact intTrunc_mono (by linarith [eloDiff_mono h])

theorem estimate_at_fifty (R : ℤ) : estimate_elo_from_score R 50 = R := by
  have hclamp : clampScore 50 = 0.5 := by
    unfold clampScore
    norm_num
  have hdiff : eloDiff 50 = 0 := by
    unfold eloDiff
    rw [hclamp]
    norm_num [Real.logb_one]
  rw [estimate_elo_from_score, hdiff, add_zero, intTrunc_intCast]

theorem estimate_at_seventyfive : estimate_elo_from_score 1500 75 = 1690 := by
  have hclamp : clampScore 75 = 0.75 := by
    unfold clampScore
    norm_num
  have harg : 1 / clampScore 75 - 1 = (3 : ℝ)⁻¹ := by
    rw [hclamp]; norm_num
  have hlogb : Real.logb 10 ((3 : ℝ)⁻¹) = -Real.logb 10 3 := Real.logb_inv 3
  have hlb : (19 : ℝ) / 40 < Real.logb 10 3 := by
    have := logb_ten_gt (n := 3) (a := 19) (b := 40) (by norm_num) (by norm_num)
    norm_num at this
    convert this using 2
  have hub : Real.logb 10 3 < (191 : ℝ) / 400 := by
    have := logb_ten_lt (n := 3) (a := 191) (b := 400) (by norm_num) (by norm_num) (by norm_num)
    convert this using 2
  have hdiff : eloDiff 75 = 400 * Real.logb 10 3 := by
    rw [eloDiff, harg, hlogb]; ring
  rw [estimate_elo_from_score, hdiff]
  rw [intTrunc, if_pos (by push_cast; nlinarith)]
  rw [Int.floor_eq_iff]
  constructor
  · push_cast; nlinarith
  · push_cast; nlinarith

theorem estimate_at_zero : estimate_elo_from_score 1500 0 = 701 := by
  have hclamp : clampScore 0 = 0.01 := by
    unfold clampScore
    norm_num
  have harg : 1 / clampScore 0 - 1 = (99 : ℝ) := by
    rw [hclamp]; norm_num
  have hlb : (399 : ℝ) / 200 < Real.logb 10 99 := by
    have := logb_ten_gt (n := 99) (a := 399) (b := 200) (by norm_num) (by norm_num)
    convert this using 2
  have hub : Real.logb 10 99 < (799 : ℝ) / 400 := by
    have := logb_ten_lt (n := 99) (a := 799) (b := 400) (by norm_num) (by norm_num) (by norm_num)
    convert this using 2
  have hdiff : eloDiff 0 = -400 * Real.logb 10 99 := by
    rw [eloDiff, harg]
  rw [estimate_elo_from_score, hdiff]
  rw [intTrunc, if_pos (by push_cast; nlinarith)]
  rw [Int.floor_eq_iff]
  constructor
  · push_cast; nlinarith
  · push_cast; nlinarith

/-! ## Helper lemmas: significance filter -/

theorem sumCounts_filter_le (p : String × Nat → Bool) (moves : List (String × Nat)) :
    sumCounts (moves.filter p) ≤ sumCounts moves := by
  induction moves with
  | nil => simp [sumCounts]
  | cons mc rest ih =>
    simp only [sumCounts, List.filter_cons] at *
    split
    · simp only [List.map_cons, List.sum_cons]
      omega
    · simp only [List.map_cons, List.sum_cons]
      omega

theorem freq_ge_of_total_le {f : ℚ} {c t₁ t₂ : Nat} (ht₂ : 0 < t₂) (hle : t₂ ≤ t₁)
    (h : f ≤ (c : ℚ) / (t₁ : ℚ)) : f ≤ (c : ℚ) / (t₂ : ℚ) := by
  have ht₂' : (0 : ℚ) < (t₂ : ℚ) := by exact_mod_cast ht₂
  refine le_trans h ?_
  apply div_le_div_of_nonneg_left (by positivity) ht₂'
  exact_mod_cast hle

theorem filter_book_second_pass (f : ℚ) (g : Nat) (hg : 1 ≤ g) :
    ∀ book : FreqTable,
      filter_book (filter_book book f g) f g =
        (filter_book book f g).filter fun pm => decide (g ≤ sumCounts pm.2)
  | [] => rfl
  | (fen, moves) :: rest => by
    simp only [filter_book]
    by_cases h₁ : sumCounts moves < g
    · simp only [if_pos h₁]
      exact filter_book_second_pass f g hg rest
    · simp only [if_neg h₁]
      by_cases h₂ :
          (moves.filter fun mc => decide (f ≤ (mc.2 : ℚ) / (sumCounts moves : ℚ))).isEmpty
      · simp only [if_pos h₂]
        exact filter_book_second_pass f g hg rest
      · simp only [if_neg h₂]
        have hsub : sumCounts
            (moves.filter fun mc => decide (f ≤ (mc.2 : ℚ) / (sumCounts moves : ℚ)))
            ≤ sumCounts moves := sumCounts_filter_le _ _
        generalize hpop :
          (moves.filter fun mc => decide (f ≤ (mc.2 : ℚ) / (sumCounts moves : ℚ)))
            = popular at h₂ hsub
        simp only [filter_book, List.filter_cons]
        by_cases h₃ : sumCounts popular < g
        · have hpred : decide (g ≤ sumCounts popular) = false := by
            simp only [decide_eq_false_iff_not]
            omega
          simp only [if_pos h₃, hpred, Bool.false_eq_true, if_false]
          exact filter_book_second_pass f g hg rest
        · have hpred : decide (g ≤ sumCounts popular) = true := by
            simp only [decide_eq_true_eq]
            omega
          have hkeep : (popular.filter fun mc =>
              decide (f ≤ (mc.2 : ℚ) / (sumCounts popular : ℚ))) = popular := by
            apply List.filter_eq_self.mpr
            intro mc hmc
            rw [← hpop] at hmc
            have hmem := List.of_mem_filter hmc
            simp only [decide_eq_true_eq] at hmem ⊢
            exact freq_ge_of_total_le (by omega) hsub hmem
          simp only [if_neg h₃, hkeep, if_neg h₂, hpred, if_true]
          rw [filter_book_second_pass f g hg rest]

theorem filter_book_eq_sigFilterSpec (f : ℚ) (g : Nat) :
    ∀ book : FreqTable, filter_book book f g = sigFilterSpec book g f
  | [] => rfl
  | (fen, moves) :: rest => by
    simp only [filter_book, sigFilterSpec, List.filterMap_cons]
    by_cases h₁ : sumCounts moves < g
    · simp only [if_pos h₁]
      exact filter_book_eq_sigFilterSpec f g rest
    · simp only [if_neg h₁, List.isEmpty_iff]
      by_cases h₂ :
          (moves.filter fun mc => decide (f ≤ (mc.2 : ℚ) / (sumCounts moves : ℚ))) = []
      · simp only [if_pos h₂]
        exact filter_book_eq_sigFilterSpec f g rest
      · simp only [if_neg h₂]
        exact congrArg (List.cons _) (filter_book_eq_sigFilterSpec f g rest)

/-! ## Helper lemmas: ranked move emission -/

theorem sortedMovesDesc_sorted (moves : List (String × Nat)) :
    (sortedMovesDesc moves).Sorted moveGE :=
  List.sorted_insertionSort moveGE moves

theorem sortedMovesDesc_perm (moves : List (String × Nat)) :
    (sortedMovesDesc moves).Perm moves :=
  List.perm_insertionSort moveGE moves

theorem filter_orderedInsert_of_count (c : Nat) (x : String × Nat) (hx : x.2 = c) :
    ∀ l : List (String × Nat),
      (List.orderedInsert moveGE x l).filter (fun mc => mc.2 == c) =
        x :: l.filter (fun mc => mc.2 == c)
  | [] => by simp [List.orderedInsert, hx]
  | y :: l => by
    simp only [List.orderedInsert]
    by_cases hr : moveGE x y
    · rw [if_pos hr, List.filter_cons, List.filter_cons]
      simp [hx]
    · rw [if_neg hr]
      have hy : (y.2 == c) = false := by
        simp only [moveGE, not_le] at hr
        simp only [beq_eq_false_iff_ne, ne_eq]
        omega
      simp only [List.filter_cons, hy, Bool.false_eq_true, if_false]
      exact filter_orderedInsert_of_count c x hx l

theorem filter_orderedInsert_of_ne (c : Nat) (x : String × Nat) (hx : x.2 ≠ c) :
    ∀ l : List (String × Nat),
      (List.orderedInsert moveGE x l).filter (fun mc => mc.2 == c) =
        l.filter (fun mc => mc.2 == c)
  | [] => by simp [List.orderedInsert, hx]
  | y :: l => by
    simp only [List.orderedInsert]
    by_cases hr : moveGE x y
    · rw [if_pos hr, List.filter_cons, List.filter_cons]
      have hxc : (x.2 == c) = false := by simpa using hx
      rw [hxc]
      simp
    · rw [if_neg hr, List.filter_cons, List.filter_cons]
      rw [filter_orderedInsert_of_ne c x hx l]

theorem sortedMovesDesc_stable (c : Nat) :
    ∀ moves : List (String × Nat),
      (sortedMovesDesc moves).filter (fun mc => mc.2 == c) =
        moves.filter (fun mc => mc.2 == c)
  | [] => rfl
  | x :: l => by
    show (List.orderedInsert moveGE x (List.insertionSort moveGE l)).filter _ = _
    by_cases hx : x.2 = c
    · rw [filter_orderedInsert_of_count c x hx, List.filter_cons]
      have : (x.2 == c) = true := by simpa using hx
      rw [this]
      simp only [if_true]
      exact congrArg (List.cons _) (sortedMovesDesc_stable c l)
    · rw [filter_orderedInsert_of_ne c x hx, List.filter_cons]
      have : (x.2 == c) = false := by simpa using hx
      rw [this]
      simp only [Bool.false_eq_true, if_false]
      exact sortedMovesDesc_stable c l

theorem emittedMoves_length_le (moves : List (String × Nat)) :
    (emittedMoves moves).length ≤ 5 := by
  simp only [emittedMoves, List.length_map]
  exact List.length_take_le 5 _

/-! ## Helper lemmas: generated lookup snippet -/

theorem midClauses_eq_zip {α : Type} :
    ∀ ds : List (α × ℤ),
      midClauses ds = (((ds.map Prod.fst).zip (specBoundaries ds)).map fun kb => (kb.2, kb.1))
  | [] => rfl
  | [(k, r)] => rfl
  | (k₁, r₁) :: (k₂, r₂) :: rest => by
    simp only [midClauses, specBoundaries, List.map_cons, List.zip_cons_cons]
    rw [midClauses_eq_zip ((k₂, r₂) :: rest)]
    simp [specBoundaries]

theorem evalChain_map_swap {α : Type} :
    ∀ (ps : List (α × ℤ)) (dflt : Option α) (x : ℤ),
      evalChain (ps.map fun kb => (kb.2, kb.1)) dflt x =
        (match ps.find? (fun kb => decide (x < kb.2)) with
          | some kb => some kb.1
          | none => dflt)
  | [], _, _ => rfl
  | (k, b) :: rest, dflt, x => by
    simp only [List.map_cons, evalChain, List.find?]
    by_cases h : x < b
    · rw [if_pos h]
      have : decide (x < b) = true := by simpa using h
      rw [this]
    · rw [if_neg h]
      have : decide (x < b) = false := by simpa using h
      rw [this]
      exact evalChain_map_swap rest dflt x

theorem eloToDepth_eq_specLookup {α : Type} :
    ∀ (ds : List (α × ℤ)) (x : ℤ), 2 ≤ ds.length →
      List.Chain' (· ≤ ·) (ds.map Prod.snd) →
      eloToDepth ds x = specLookup ds x
  | [], _, h, _ => by simp at h
  | [(k, r)], _, h, _ => by simp at h
  | (k₀, r₀) :: (k₁, r₁) :: rest, x, _, hmono => by
    have hr01 : r₀ ≤ r₁ := by
      simp only [List.map_cons, List.chain'_cons] at hmono
      exact hmono.1
    have hb₀ : r₀ ≤ (r₀ + r₁).fdiv 2 := by
      rw [Int.fdiv_eq_ediv _ (by norm_num)]
      rw [Int.le_ediv_iff_mul_le (by norm_num)]
      linarith
    simp only [eloToDepth, genClauses]
    rw [midClauses_eq_zip]
    simp only [evalChain]
    by_cases hx : x < r₀
    · rw [if_pos hx]
      simp only [specLookup, specBoundaries, List.map_cons, List.zip_cons_cons, List.find?]
      have hdec : decide (x < (r₀ + r₁).fdiv 2) = true := by
        simp only [decide_eq_true_eq]
        omega
      rw [hdec]
    · rw [if_neg hx]
      rw [evalChain_map_swap]
      simp only [specLookup, specBoundaries, List.map_cons, List.zip_cons_cons, List.find?]
      by_cases hxb : x < (r₀ + r₁).fdiv 2
      · have hdec : decide (x < (r₀ + r₁).fdiv 2) = true := by simpa using hxb
        rw [hdec, if_pos hxb]
      · have hdec : decide (x < (r₀ + r₁).fdiv 2) = false := by simpa using hxb
        rw [hdec, if_neg hxb]

/-! ## Helper lemmas: training-data extraction -/

theorem result_to_score_decisive {r : String} (h : r = "1-0" ∨ r = "0-1") (c : Bool) :
    result_to_score r c = some 0 ∨ result_to_score r c = some 1 := by
  rcases h with h | h <;> subst h <;> cases c <;> simp [result_to_score]

theorem extractLoop_scores {r : String} (hr : r = "1-0" ∨ r = "0-1") (ppg : Nat) :
    ∀ (ps : List PosInfo) (mn c : Nat) (pair : String × ℚ),
      pair ∈ extractLoop r ppg ps mn c → pair.2 = 0 ∨ pair.2 = 1
  | [], _, _, _, h => by simp [extractLoop] at h
  | p :: rest, mn, c, pair, h => by
    rw [extractLoop] at h
    by_cases h₀ : ppg ≤ c
    · rw [if_pos h₀] at h
      simp at h
    · rw [if_neg h₀] at h
      by_cases h₁ : mn + 1 < 10
      · rw [if_pos h₁] at h
        exact extractLoop_scores hr ppg rest (mn + 1) c pair h
      · rw [if_neg h₁] at h
        by_cases h₂ : 50 < mn + 1
        · rw [if_pos h₂] at h
          simp at h
        · rw [if_neg h₂] at h
          by_cases h₃ : p.isQuiet = false
          · rw [if_pos h₃] at h
            exact extractLoop_scores hr ppg rest (mn + 1) c pair h
          · rw [if_neg h₃] at h
            rcases hs : result_to_score r p.turnWhite with _ | s
            · rw [hs] at h
              exact extractLoop_scores hr ppg rest (mn + 1) c pair h
            · rw [hs] at h
              rcases List.mem_cons.mp h with h | h
              · have := result_to_score_decisive hr p.turnWhite
                rw [hs] at this
                rcases this with h1 | h1 <;> [left; right] <;>
                  simp only [h, Option.some_inj] at h1 ⊢ <;> simp [h1]
              · exact extractLoop_scores hr ppg rest (mn + 1) (c + 1) pair h

theorem process_game_scores (g : GameRecord) (minElo : ℤ) (ppg : Nat)
    (pair : String × ℚ) (h : pair ∈ process_game g minElo ppg) :
    pair.2 = 0 ∨ pair.2 = 1 := by
  rw [process_game] at h
  by_cases hr : g.result = "1-0" ∨ g.result = "0-1"
  · rw [if_pos hr] at h
    by_cases hu : trainingUsed g.whiteElo g.blackElo minElo = true
    · rw [if_pos hu] at h
      exact extractLoop_scores hr ppg g.positions 0 0 pair h
    · rw [if_neg hu] at h
      simp at h
  · rw [if_neg hr] at h
    simp at h

/-! ## Claims -/

/-- C6: the Significance Filter computes the per-position total, drops a
position when the total is below minSamples, otherwise keeps exactly the moves
whose relative frequency reaches minFrequency, and drops the position when no
move survives; in particular a position seen in 15 games with minSamples 20 is
dropped regardless of per-move frequencies. Stated as equality of the code
translation `filter_book` with the spec-worded `sigFilterSpec`, plus the
concrete 15-game scenario. -/
theorem c6_filter_algorithm :
    (∀ (book : FreqTable) (f : ℚ) (g : Nat), filter_book book f g = sigFilterSpec book g f)
    ∧ filter_book [("p", [("a", 9), ("b", 6)])] (1 / 20) 20 = [] :=
  ⟨fun book f g => filter_book_eq_sigFilterSpec f g book, rfl⟩

/-- C5 counterexample: re-running the filter on its own output with the same
thresholds is not the identity. With minFrequency 1/2 and minGames 10, the
position with counts 6 and 5 keeps only the count-6 move on the first pass
(total 11), and the second pass drops the position entirely (total 6 < 10). -/
theorem c5_idempotence_counterexample :
    filter_book [("p", [("a", 6), ("b", 5)])] (1 / 2) 10 = [("p", [("a", 6)])]
    ∧ filter_book (filter_book [("p", [("a", 6), ("b", 5)])] (1 / 2) 10) (1 / 2) 10 = []
    ∧ ([] : FreqTable) ≠ [("p", [("a", 6)])] := by
  refine ⟨?_, ?_, by simp⟩ <;>
    norm_num [filter_book, sumCounts, List.filter]

/-- C5 amended: a second pass of the Significance Filter with the same
thresholds never removes individual moves, but it drops exactly those retained
positions whose surviving total of counts has fallen below minSamples; the
output is a fixed point only when no retained position lost enough support. -/
theorem c5_idempotence_amended (book : FreqTable) (f : ℚ) (g : Nat) (hg : 1 ≤ g) :
    filter_book (filter_book book f g) f g =
      (filter_book book f g).filter fun pm => decide (g ≤ sumCounts pm.2) :=
  filter_book_second_pass f g hg book

/-- C5 witness: the amended statement at the concrete counterexample input. -/
theorem c5_idempotence_witness :
    1 ≤ 10
    ∧ filter_book (filter_book [("p", [("a", 6), ("b", 5)])] (1 / 2) 10) (1 / 2) 10 =
        (filter_book [("p", [("a", 6), ("b", 5)])] (1 / 2) 10).filter
          fun pm => decide (10 ≤ sumCounts pm.2) :=
  ⟨by decide, c5_idempotence_amended [("p", [("a", 6), ("b", 5)])] (1 / 2) 10 (by decide)⟩

/-- C7 counterexample: two moves with equal counts are emitted in dict
insertion order, not in canonical string order: with the count-3 moves g1f3
and e2e4 observed in that order, the emission is [g1f3, e2e4] although e2e4
precedes g1f3 in string order. -/
theorem c7_output_ordering_counterexample :
    emittedMoves [("g1f3", 3), ("e2e4", 3)] = ["g1f3", "e2e4"]
    ∧ ("e2e4" : String) < "g1f3" := by
  refine ⟨rfl, ?_⟩
  rw [String.lt_iff_toList_lt]
  exact List.Lex.rel (by decide)

/-- C7 amended: the emitted moves of a retained position are the first at most
five entries of a ranking that is sorted by non-increasing count, is a
permutation of the position entry, and preserves the original (insertion)
order among moves of equal count; ties are broken by insertion order rather
than by canonical string ordering. -/
theorem c7_output_ordering_amended (moves : List (String × Nat)) :
    (emittedMoves moves).length ≤ 5
    ∧ (sortedMovesDesc moves).Sorted moveGE
    ∧ (sortedMovesDesc moves).Perm moves
    ∧ ∀ c : Nat, (sortedMovesDesc moves).filter (fun mc => mc.2 == c) =
        moves.filter (fun mc => mc.2 == c) :=
  ⟨emittedMoves_length_le moves, sortedMovesDesc_sorted moves, sortedMovesDesc_perm moves,
    fun c => sortedMovesDesc_stable c moves⟩

/-- C2 counterexample: a calibration record with zero total games is parsed
successfully with the default score percentage 0, `main` invokes the estimator
on it, and the record contributes the concrete numeric estimate 701 against a
1500-rated opponent (the clamp maps the default score 0 to 0.01). -/
theorem c2_zero_games_counterexample :
    parse_log_file ⟨some (5, 1500), some 0, some 0, some 0, some 0⟩ =
      some (5, 1500, 0, 0, 0, 0)
    ∧ mainEstimates [⟨some (5, 1500), some 0, some 0, some 0, some 0⟩] =
        [estimate_elo_from_score 1500 0]
    ∧ estimate_elo_from_score 1500 0 = 701 := by
  refine ⟨rfl, ?_, estimate_at_zero⟩
  simp [mainEstimates, parse_log_file]

/-- C2 amended: a record whose three result counters are all zero is not
treated as missing; `parse_log_file` returns it with score percentage
defaulted to 0, `main` feeds it to the estimator like any other record, and
every parsed record contributes exactly one estimate. -/
theorem c2_zero_games_amended (d sf : Nat) (logs : List CalibLog) :
    parse_log_file ⟨some (d, sf), some 0, some 0, some 0, some 0⟩ =
      some (d, sf, 0, 0, 0, 0)
    ∧ mainEstimates [⟨some (d, sf), some 0, some 0, some 0, some 0⟩] =
        [estimate_elo_from_score (sf : ℤ) 0]
    ∧ (mainEstimates logs).length = (logs.filterMap parse_log_file).length := by
  refine ⟨rfl, ?_, by simp [mainEstimates]⟩
  simp [mainEstimates, parse_log_file]

/-- C9 counterexample: at opponent rating 1500 and score percentage 75 the
translated estimator returns exactly 1690, not approximately 1676; the real
value before truncation is 1500 + 400 log10 3, which lies in (1690, 1691). -/
theorem c9_scenario_counterexample :
    estimate_elo_from_score 1500 75 = 1690 ∧ (1690 : ℤ) ≠ 1676 :=
  ⟨estimate_at_seventyfive, by decide⟩

/-- C9 amended: with opponent rating 1500 and record W7-L2-D1, the points are
7.5, the parsed score percentage is 75 (score fraction 0.75), and the
estimated rating is 1690, the truncation of 1500 + 400 log10 3. -/
theorem c9_scenario_amended (d : Nat) :
    mainPoints 7 1 = 15 / 2
    ∧ parse_log_file ⟨some (d, 1500), some 7, some 2, some 1, some (15 / 2)⟩ =
        some (d, 1500, 75, 7, 2, 1)
    ∧ ((15 : ℚ) / 2) / 10 = 3 / 4
    ∧ estimate_elo_from_score 1500 75 = 1690 := by
  refine ⟨by norm_num [mainPoints], ?_, by norm_num, estimate_at_seventyfive⟩
  simp only [parse_log_file]
  norm_num

/-- C4 counterexample: the estimator is not strictly increasing over the whole
open unit interval of score fractions: the fractions 0.001 and 0.005 (score
percentages 1/10 and 1/2) both clamp to 0.01 and give the same estimate. -/
theorem c4_estimator_counterexample :
    (0 : ℝ) < 1 / 10 ∧ (1 / 10 : ℝ) < 1 / 2 ∧ (1 / 2 : ℝ) < 100
    ∧ estimate_elo_from_score 1500 (1 / 10) = estimate_elo_from_score 1500 (1 / 2) := by
  refine ⟨by norm_num, by norm_num, by norm_num, ?_⟩
  have h1 : clampScore (1 / 10) = 0.01 := by
    unfold clampScore
    rw [min_eq_right (by norm_num), max_eq_left (by norm_num)]
  have h2 : clampScore (1 / 2) = 0.01 := by
    unfold clampScore
    rw [min_eq_right (by norm_num), max_eq_left (by norm_num)]
  unfold estimate_elo_from_score eloDiff
  rw [h1, h2]

/-- C4 amended: for a fixed opponent rating the estimate is monotone
non-decreasing in the score percentage (strictness fails on the clamped ends
and under integer truncation), and the estimate at score percentage 50, that
is score fraction 0.5, equals the opponent rating exactly. -/
theorem c4_estimator_amended (R : ℤ) (s₁ s₂ : ℝ) (h : s₁ ≤ s₂) :
    estimate_elo_from_score R s₁ ≤ estimate_elo_from_score R s₂
    ∧ estimate_elo_from_score R 50 = R :=
  ⟨estimate_mono R h, estimate_at_fifty R⟩

/-- C4 witness: the amended statement at opponent 1500 and scores 25 and 75. -/
theorem c4_estimator_witness :
    (25 : ℝ) ≤ 75
    ∧ estimate_elo_from_score 1500 25 ≤ estimate_elo_from_score 1500 75
    ∧ estimate_elo_from_score 1500 50 = 1500 :=
  ⟨by norm_num, (c4_estimator_amended 1500 25 75 (by norm_num)).1,
    (c4_estimator_amended 1500 25 75 (by norm_num)).2⟩

/-- C3 counterexample: for the non-monotone table mapping depth 4 to rating
1200 and depth 6 to rating 800, the summary output contains no warning line
and presents the rows unchanged in configKey order. -/
theorem c3_monotonicity_counterexample :
    ¬ List.Chain' (· ≤ ·) (([(4, 1200), (6, 800)] : List (Nat × ℤ)).map Prod.snd)
    ∧ ((calibSummaryOutput [(4, 1200), (6, 800)]).all fun l => !l.isWarning) = true
    ∧ (calibSummaryOutput [(4, 1200), (6, 800)]).filterMap CalLine.rowData =
        [(4, 1200, "Intermediate"), (6, 800, "Novice")] := by
  refine ⟨by norm_num [List.chain'_cons], by decide, by decide⟩

/-- C3 amended: the Calibrator performs no monotonicity check at all: for
every depth-to-rating table the emitted summary contains no warning line, and
the mapping rows are exactly the table entries in ascending configKey order
with their skill labels, whether or not the ratings are monotone. -/
theorem c3_monotonicity_amended (depthElos : List (Nat × ℤ)) :
    ((calibSummaryOutput depthElos).all fun l => !l.isWarning) = true
    ∧ (calibSummaryOutput depthElos).filterMap CalLine.rowData =
        (List.insertionSort keyLE depthElos).map fun de => (de.1, de.2, skillFor de.2) := by
  have h₁ : ∀ rows : List (Nat × ℤ),
      List.filterMap CalLine.rowData
        (rows.map fun de => CalLine.mappingRow de.1 de.2 (skillFor de.2)) =
        rows.map fun de => (de.1, de.2, skillFor de.2) := by
    intro rows
    induction rows with
    | nil => rfl
    | cons hd tl ih => exact congrArg (List.cons _) ih
  have h₂ : ∀ l : List (ℤ × Nat),
      List.filterMap CalLine.rowData (l.map fun bk => CalLine.codeClause bk.1 bk.2) = [] := by
    intro l
    induction l with
    | nil => rfl
    | cons hd tl ih => exact ih
  have hwarnRows : ∀ rows : List (Nat × ℤ),
      ((rows.map fun de => CalLine.mappingRow de.1 de.2 (skillFor de.2)).all
        fun l => !l.isWarning) = true := by
    intro rows
    induction rows with
    | nil => rfl
    | cons hd tl ih =>
      rw [List.map_cons, List.all_cons, ih]
      rfl
  have hwarnClauses : ∀ l : List (ℤ × Nat),
      ((l.map fun bk => CalLine.codeClause bk.1 bk.2).all fun l => !l.isWarning) = true := by
    intro l
    induction l with
    | nil => rfl
    | cons hd tl ih =>
      rw [List.map_cons, List.all_cons, ih]
      rfl
  constructor
  · simp only [calibSummaryOutput, List.all_append, Bool.and_eq_true]
    refine ⟨⟨⟨⟨⟨rfl, hwarnRows _⟩, rfl⟩, hwarnClauses _⟩, ?_⟩, rfl⟩
    rcases (genClauses (List.insertionSort keyLE depthElos)).2 with _ | k <;> rfl
  · simp only [calibSummaryOutput, List.filterMap_append]
    rw [h₁, h₂]
    rcases (genClauses (List.insertionSort keyLE depthElos)).2 with _ | k <;>
      simp [CalLine.rowData]

/-- C8: for a depth-rating table sorted ascending by configKey with
non-decreasing ratings (the DepthRatingTable invariant), the boundary between
consecutive entries is the floor midpoint of their ratings, the generated
lookup function agrees everywhere with the spec-worded lookup (smallest
configKey whose upper boundary exceeds the input, largest configKey at or
above the last boundary), and on keys 4, 6, 8 with ratings 800, 1200, 1800 the
boundaries are 1000 and 1500 with lookup 950 = 4, lookup 1000 = 6 and
lookup 1600 = 8. -/
theorem c8_lookup_derivation (ds : List (ℤ × ℤ)) (x : ℤ)
    (hlen : 2 ≤ ds.length)
    (_hkeys : List.Chain' (· < ·) (ds.map Prod.fst))
    (hmono : List.Chain' (· ≤ ·) (ds.map Prod.snd)) :
    eloToDepth ds x = specLookup ds x
    ∧ specBoundaries [((4 : ℤ), (800 : ℤ)), (6, 1200), (8, 1800)] = [1000, 1500]
    ∧ eloToDepth [((4 : ℤ), (800 : ℤ)), (6, 1200), (8, 1800)] 950 = some 4
    ∧ eloToDepth [((4 : ℤ), (800 : ℤ)), (6, 1200), (8, 1800)] 1000 = some 6
    ∧ eloToDepth [((4 : ℤ), (800 : ℤ)), (6, 1200), (8, 1800)] 1600 = some 8 :=
  ⟨eloToDepth_eq_specLookup ds x hlen hmono, by decide, by decide, by decide, by decide⟩

/-- C8 witness: the lookup agreement at the example table and input 950. -/
theorem c8_lookup_derivation_witness :
    (2 ≤ ([((4 : ℤ), (800 : ℤ)), (6, 1200), (8, 1800)]).length
      ∧ List.Chain' (· < ·) (([((4 : ℤ), (800 : ℤ)), (6, 1200), (8, 1800)]).map Prod.fst)
      ∧ List.Chain' (· ≤ ·) (([((4 : ℤ), (800 : ℤ)), (6, 1200), (8, 1800)]).map Prod.snd))
    ∧ eloToDepth [((4 : ℤ), (800 : ℤ)), (6, 1200), (8, 1800)] 950 =
        specLookup [((4 : ℤ), (800 : ℤ)), (6, 1200), (8, 1800)] 950 := by
  refine ⟨⟨by simp, by simp [List.chain'_cons], by simp [List.chain'_cons]⟩, ?_⟩
  exact (c8_lookup_derivation _ 950 (by simp) (by simp [List.chain'_cons])
    (by simp [List.chain'_cons])).1

/-- C1 counterexample: the opening-book extractor gates on the average rating,
not on each rating: with minimum 2200 a game rated 2400 and 2000 is used and
its positions are yielded although one rating is below the minimum, and a game
with an absent rating (read as 0) and a 4500 partner is used as well. -/
theorem c1_rating_floor_counterexample :
    openingUsed ⟨.val 2400, .val 2000, [("fen0", "e2e4")]⟩ 2200 = true
    ∧ (2000 : ℤ) < 2200
    ∧ openingGamePositions ⟨.val 2400, .val 2000, [("fen0", "e2e4")]⟩ 2200 12 =
        [("fen0", "e2e4")]
    ∧ openingUsed ⟨.absent, .val 4500, []⟩ 2200 = true := by
  have h1 : openingUsed ⟨.val 2400, .val 2000, [("fen0", "e2e4")]⟩ 2200 = true := by
    simp only [openingUsed, parseEloDefaultZero]
    norm_num
  have h2 : openingUsed ⟨.absent, .val 4500, []⟩ 2200 = true := by
    simp only [openingUsed, parseEloDefaultZero]
    norm_num
  refine ⟨h1, by decide, ?_, h2⟩
  rw [openingGamePositions, if_pos h1]
  rfl

/-- C1 amended: in training mode both parsed ratings must reach the minimum
(absent headers read as 0, an unparseable header discards the game, and a
rejected game yields no position); in opening mode only the average of the two
ratings must reach the minimum, with absent headers read as 0 and unparseable
headers discarding the game, so a game can be used although one rating is
absent or below the minimum. -/
theorem c1_rating_floor_amended (g : OpeningGame) (gr : GameRecord) (minR : ℚ) (minE : ℤ)
    (ppg maxM : Nat) :
    (openingUsed g minR = true ↔ ∃ wv bv,
        parseEloDefaultZero g.whiteElo = some wv ∧ parseEloDefaultZero g.blackElo = some bv ∧
        minR ≤ ((wv : ℚ) + (bv : ℚ)) / 2)
    ∧ (trainingUsed gr.whiteElo gr.blackElo minE = true ↔ ∃ wv bv,
        parseEloDefaultZero gr.whiteElo = some wv ∧ parseEloDefaultZero gr.blackElo = some bv ∧
        minE ≤ wv ∧ minE ≤ bv)
    ∧ (openingUsed g minR = false → openingGamePositions g minR maxM = [])
    ∧ (trainingUsed gr.whiteElo gr.blackElo minE = false → process_game gr minE ppg = [])
    ∧ parseEloDefaultZero EloField.absent = some 0 := by
  refine ⟨?_, ?_, ?_, ?_, rfl⟩
  · unfold openingUsed
    cases hw : parseEloDefaultZero g.whiteElo <;>
      cases hb : parseEloDefaultZero g.blackElo <;>
        simp [not_lt]
  · unfold trainingUsed get_game_elo
    cases hw : parseEloDefaultZero gr.whiteElo <;>
      cases hb : parseEloDefaultZero gr.blackElo <;>
        simp [not_or, not_lt]
  · intro h
    rw [openingGamePositions, h]
    rfl
  · intro h
    rw [process_game, h]
    simp

/-- C1 witness: the amended statement applied to a game with an unparseable
white rating, which the opening extractor rejects. -/
theorem c1_rating_floor_witness :
    openingUsed ⟨.bad, .val 3000, [("f", "m")]⟩ 2200 = false
    ∧ openingGamePositions ⟨.bad, .val 3000, [("f", "m")]⟩ 2200 12 = [] := by
  have h := c1_rating_floor_amended ⟨.bad, .val 3000, [("f", "m")]⟩ drawnGame 2200 1800 5 12
  have hfalse : openingUsed ⟨EloField.bad, .val 3000, [("f", "m")]⟩ 2200 = false := rfl
  exact ⟨hfalse, h.2.2.1 hfalse⟩

/-- C10: every line emitted by the training-data pipeline carries a score of
exactly 0 or 1; the drawn-game branch of result_to_score exists and yields
one half, but a non-decisive game is rejected before any position is
extracted, so that branch never contributes to the output. -/
theorem c10_scores_binary (games : List GameRecord) (minElo : ℤ) (ppg maxPos : Nat) :
    ((collectMain games minElo ppg maxPos).all fun p => p.2 == 0 || p.2 == 1) = true
    ∧ result_to_score "1/2-1/2" true = some (1 / 2)
    ∧ result_to_score "1/2-1/2" false = some (1 / 2)
    ∧ process_game drawnGame 0 5 = [] := by
  refine ⟨?_, rfl, rfl, rfl⟩
  apply List.all_eq_true.mpr
  intro p hp
  rw [collectMain] at hp
  have hp' : p ∈ (games.map fun g => process_game g minElo ppg).flatten :=
    List.mem_of_mem_take hp
  obtain ⟨l, hl, hpl⟩ := List.mem_flatten.mp hp'
  obtain ⟨g, hg, rfl⟩ := List.mem_map.mp hl
  rcases process_game_scores g minElo ppg p hpl with h | h <;> simp [h]
